import Mathlib

/-!
Verification of the stimulation-train generator's real-time core.

The definitions below are a shallow embedding of the Python sources:
* `app/utils/ramp_calculator.py` (`RampCalculator.generate_single_frequency_ramp`,
  `RampCalculator.generate_single_amplitude_ramp`, `generate_all_frequency_ramps`),
* `analog_streaming/managers/continuous_manager.py` (`ContinuousStimManager`),
* `analog_streaming/workers/stim_worker.py` and `analog_streaming/core/stim_worker.py`
  (`StimWorker.stop`).

Real numbers of the source are modelled as rationals; Python lists as Lean
lists (copy-on-assign value semantics, matching the source's `.copy()` calls);
a Python statement that raises (`ZeroDivisionError`, `IndexError`) is modelled
by an `Option` result of `none` — except in `ramp_frequency`, where the state
has already been mutated when the exception fires, so the outcome is an
`Except` whose error value carries that state.  Qt signal emissions are an
explicit list of emitted `ManagerSignal` values; the signal vocabulary contains
both `signal_event_updated` (declared by the manager) and
`signal_last_ramp_event` (the signal the controller
`ContinuousStimWidget._connect_signals` subscribes to).
-/

namespace StimSpec

/-- `StimEvent` dataclass from `analog_streaming/core/data_classes.py`:
channel, frequency, amplitude and (derived) period. -/
structure StimEvent where
  channel : Int
  frequency : ℚ
  amplitude : ℚ
  period : ℚ
deriving DecidableEq, Repr

/-- `RampValues` dataclass: the three per-target lists of ramp values. -/
structure RampValues where
  current_to_max : List ℚ
  current_to_rest : List ℚ
  current_to_min : List ℚ
deriving DecidableEq, Repr

/-- The signals a `ContinuousStimManager` client can be wired to:
`signal_event_updated` (declared in `continuous_manager.py`) and
`signal_last_ramp_event` (connected by
`ContinuousStimWidget._connect_signals` to `_handle_ramp_finished`). -/
inductive ManagerSignal where
  | eventUpdated (e : StimEvent)
  | lastRampEvent (e : StimEvent)
deriving DecidableEq, Repr

/-- Recognizes a ramp-finished (`signal_last_ramp_event`) emission. -/
def ManagerSignal.isLastRamp : ManagerSignal → Bool
  | .lastRampEvent _ => true
  | .eventUpdated _ => false

/-- The mutable fields of `ContinuousStimManager.__init__`. -/
structure ManagerState where
  current_channel : Int
  current_amplitude : ℚ
  current_frequency : ℚ
  current_period : ℚ
  frequency_ramp_values : Option RampValues
  amplitude_ramp_values : Option RampValues
  staged_events : List StimEvent
  events : List StimEvent
  are_updates_live : Bool
  running : Bool
  parameters_changed : Bool
deriving DecidableEq, Repr

/-- `ContinuousStimManager.__init__`: channel 0, amplitude 0.0 and frequency
30.0 (the `AmplitudeDefaults`/`FrequencyDefaults` global values), no ramp
values, empty staged list, and a single initial event in `events`. -/
def initialManagerState : ManagerState :=
  { current_channel := 0
    current_amplitude := 0
    current_frequency := 30
    current_period := 1 / 30
    frequency_ramp_values := none
    amplitude_ramp_values := none
    staged_events := []
    events := [⟨0, 30, 0, 1 / 30⟩]
    are_updates_live := false
    running := false
    parameters_changed := false }

/-- `ContinuousStimManager.get_next_event`: reuse the single event when
`len(events) == 1`, otherwise `events.pop(0)`; emit `signal_event_updated`
with the effective event.  `pop(0)` on an empty list raises, hence `none`. -/
def get_next_event (s : ManagerState) :
    Option (StimEvent × ManagerState × List ManagerSignal) :=
  match s.events with
  | [] => none
  | [e] => some (e, s, [ManagerSignal.eventUpdated e])
  | e :: rest => some (e, { s with events := rest }, [ManagerSignal.eventUpdated e])

/-- `ContinuousStimManager._stage_new_stim_event`: clear the staged list
(when `clear_previous`) and append a fresh event built from the current
parameters; `1/current_frequency` raises when the frequency is zero. -/
def stage_new_stim_event (s : ManagerState) (clearPrevious : Bool) :
    Option ManagerState :=
  if s.current_frequency = 0 then none
  else
    let e : StimEvent :=
      ⟨s.current_channel, s.current_frequency, s.current_amplitude,
        1 / s.current_frequency⟩
    some { s with
            staged_events := (if clearPrevious then [] else s.staged_events) ++ [e] }

/-- `ContinuousStimManager.apply_changes`: replace `events` by a copy of
`staged_events`, but only when `staged_events` is truthy (non-empty). -/
def apply_changes (s : ManagerState) : ManagerState :=
  if s.staged_events = [] then s else { s with events := s.staged_events }

/-- `ContinuousStimManager._parameters_changed_callback`: mark parameters
changed, stage a fresh single event, and apply immediately in live mode. -/
def parameters_changed_callback (s : ManagerState) : Option ManagerState := do
  let s1 ← stage_new_stim_event { s with parameters_changed := true } true
  if s1.are_updates_live then pure (apply_changes s1) else pure s1

/-- `ContinuousStimManager.set_channel`. -/
def set_channel (s : ManagerState) (channel : Int) : Option ManagerState :=
  parameters_changed_callback { s with current_channel := channel }

/-- `ContinuousStimManager.set_amplitude`. -/
def set_amplitude (s : ManagerState) (amplitude : ℚ) : Option ManagerState :=
  parameters_changed_callback { s with current_amplitude := amplitude }

/-- `ContinuousStimManager.set_frequency`: stores `frequency` unconditionally
and then runs the staging callback; there is no validation of the argument. -/
def set_frequency (s : ManagerState) (frequency : ℚ) : Option ManagerState :=
  parameters_changed_callback { s with current_frequency := frequency }

/-- `ContinuousStimManager.set_update_mode`: store the flag and, when turning
live updates on, apply any pending staged changes. -/
def set_update_mode (s : ManagerState) (live : Bool) : ManagerState :=
  let s1 := { s with are_updates_live := live }
  if live then apply_changes s1 else s1

/-- The three ramp targets of `ContinuousStimManager.ramp_frequency`; any
direction string other than max/rest falls through to the min list. -/
inductive RampDirection where
  | toMax
  | toRest
  | toMin
deriving DecidableEq, Repr

/-- `ContinuousStimManager.ramp_frequency`: a no-op when no ramp values are
installed; otherwise the source runs `self.events.clear()` first and only
then builds the replacement list (one event per ramp value, period `1/freq`),
so a zero ramp value makes the comprehension raise `ZeroDivisionError` before
the assignment, leaving `events` empty.  The exceptional outcome is modelled
as `Except.error` carrying the manager state as the exception propagates. -/
def ramp_frequency (s : ManagerState) (dir : RampDirection) :
    Except ManagerState ManagerState :=
  match s.frequency_ramp_values with
  | none => Except.ok s
  | some rv =>
    let vals : List ℚ :=
      match dir with
      | .toMax => rv.current_to_max
      | .toRest => rv.current_to_rest
      | .toMin => rv.current_to_min
    if vals.all (· ≠ 0) then
      Except.ok { s with
                    events := vals.map fun f =>
                      ⟨s.current_channel, f, s.current_amplitude, 1 / f⟩ }
    else Except.error { s with events := [] }

/-- `ContinuousStimManager.start` (thread spawn elided): set the running flag. -/
def manager_start (s : ManagerState) : ManagerState :=
  { s with running := true }

/-- `ContinuousStimManager.stop` (thread join elided): clear the running flag. -/
def manager_stop (s : ManagerState) : ManagerState :=
  { s with running := false }

/-! ### Workers

Both `StimWorker.stop` variants only touch the worker's `running` flag and
the DAQ, so the embedded worker state is that flag; hardware activity is the
returned trace of DAQ calls. -/

/-- Calls offered by the `DAQ` hardware collaborator. -/
inductive DAQCall where
  | setChannelCall (c : Int)
  | setAmplitudeCall (a : ℚ)
  | triggerCall
  | zeroAllCall
deriving DecidableEq, Repr

/-- Worker state relevant to `stop()`: the `running` flag. -/
structure WorkerState where
  running : Bool
deriving DecidableEq, Repr

/-- `analog_streaming/workers/stim_worker.py` `StimWorker.stop`:
`self.running = False; self.daq.zero_all()`. -/
def workers_stim_worker_stop (s : WorkerState) : WorkerState × List DAQCall :=
  ({ s with running := false }, [DAQCall.zeroAllCall])

/-- `analog_streaming/core/stim_worker.py` `StimWorker.stop`:
`self.running = False`; the `self.daq.zero_all()` line is commented out in
the source, so no DAQ call is issued. -/
def core_stim_worker_stop (s : WorkerState) : WorkerState × List DAQCall :=
  ({ s with running := false }, [])

/-! ### Ramp calculator (`app/utils/ramp_calculator.py`) -/

/-- The linear interpolation
`start_frequency + (end_frequency - start_frequency) * (current_time / duration)`
recomputed at each step of `generate_single_frequency_ramp`. -/
def freqAt (f1 f2 d t : ℚ) : ℚ :=
  f1 + (f2 - f1) * (t / d)

/-- The `while current_time + period <= duration` loop of
`generate_single_frequency_ramp`, made structurally recursive on a fuel
argument; `none` means the fuel ran out before the guard turned false
(`generate_single_frequency_ramp` supplies provably sufficient fuel).
Returns the appended frequencies together with the final `current_time`. -/
def rampLoop (f1 f2 d : ℚ) : ℕ → ℚ → ℚ → Option (List ℚ × ℚ)
  | 0, t, cf => if t + 1 / cf ≤ d then none else some ([], t)
  | fuel + 1, t, cf =>
    if t + 1 / cf ≤ d then
      (rampLoop f1 f2 d fuel (t + 1 / cf) (freqAt f1 f2 d (t + 1 / cf))).map
        fun p => (cf :: p.1, p.2)
    else some ([], t)

/-- Python's `sorted(results, reverse=(end_frequency < start_frequency))`:
ascending, or descending when the ramp goes down.  The sorting algorithm
differs from CPython's, but on rationals the sorted list (and a fortiori
its multiset of elements) is the same. -/
def sortRamp (f1 f2 : ℚ) (l : List ℚ) : List ℚ :=
  if f2 < f1 then l.insertionSort (fun a b => b ≤ a)
  else l.insertionSort (fun a b => a ≤ b)

/-- Fuel that `generate_single_frequency_ramp` hands to `rampLoop`: strictly
more than `duration * max start_frequency end_frequency`, an upper bound on
the number of loop iterations (each iteration advances `current_time` by at
least `1 / max f1 f2`). -/
def rampFuel (f1 f2 d : ℚ) : ℕ :=
  (⌈d * max f1 f2⌉).toNat + 1

/-- The `if current_time < duration` correction block of
`generate_single_frequency_ramp`: append the candidate
`last_frequency = 1 / remaining_time` only when it lies strictly between the
two endpoint frequencies, otherwise discard it silently. -/
def correctedResults (f1 f2 d t : ℚ) (results : List ℚ) : List ℚ :=
  if t < d then
    if min f1 f2 < 1 / (d - t) ∧ 1 / (d - t) < max f1 f2 then
      results ++ [1 / (d - t)]
    else results
  else results

/-- `RampCalculator.generate_single_frequency_ramp` from
`app/utils/ramp_calculator.py`: duration 0 short-circuits to
`[end_frequency]`; otherwise run the stepping loop from `t = 0` at the start
frequency, then, if time remains, append the duration-correcting candidate
`1 / remaining_time` provided it lies strictly between the two endpoint
frequencies, append `end_frequency`, and sort in ramp direction. -/
def generate_single_frequency_ramp (f1 f2 d : ℚ) : Option (List ℚ) :=
  if d = 0 then some [f2]
  else
    match rampLoop f1 f2 d (rampFuel f1 f2 d) 0 f1 with
    | none => none
    | some (results, t) =>
      some (sortRamp f1 f2 (correctedResults f1 f2 d t results ++ [f2]))

/-- `RampCalculator.generate_all_frequency_ramps`: one
`generate_single_frequency_ramp` per target (max, rest, min), from the
current frequency, packed into a `RampValues`. -/
def generate_all_frequency_ramps (cur maxF maxD restF restD minF minD : ℚ) :
    Option RampValues := do
  let toMax ← generate_single_frequency_ramp cur maxF maxD
  let toRest ← generate_single_frequency_ramp cur restF restD
  let toMin ← generate_single_frequency_ramp cur minF minD
  pure ⟨toMax, toRest, toMin⟩

/-- Python's `int(x)` (truncation toward zero) on a rational. -/
def intTrunc (x : ℚ) : ℤ :=
  if 0 ≤ x then ⌊x⌋ else -⌊-x⌋

/-- `numpy.linspace(a, b, n)` with the default inclusive endpoint:
`n` samples `a + i * (b - a) / (n - 1)`; `[]` for `n = 0`, `[a]` for `n = 1`. -/
def linspace (a b : ℚ) (n : ℕ) : List ℚ :=
  if n ≤ 1 then List.replicate n a
  else (List.range n).map fun i : ℕ => a + (b - a) * (i : ℚ) / ((n : ℚ) - 1)

/-- `RampCalculator.generate_single_amplitude_ramp` from
`app/utils/ramp_calculator.py`: `int(duration / (1 / current_frequency))`
intermediates; the counts 1 and 2 are special-cased in the source
(`[end]` and `[(start+end)/2, end]` respectively), everything else goes
through `np.linspace` (which yields `[]` for count 0). -/
def generate_single_amplitude_ramp (a1 a2 d f : ℚ) : List ℚ :=
  let q : ℤ := intTrunc (d / (1 / f))
  if q = 1 then [a2]
  else if q = 2 then [(a1 + a2) / 2, a2]
  else linspace a1 a2 q.toNat

/-! ### Manager transition system

`ManagerStep` collects the state transitions of the manager's public
operations (the operations named by the spec's invariant section), plus the
two ways its callers in `controllers/continuous_stimulation.py` write to the
manager's attributes directly: installing a freshly generated
`RampValues` (`_update_all_frequency_ramps`) and overwriting
`staged_events` (`_handle_update_button_clicked`). -/

/-- One observable transition of `ContinuousStimManager`. -/
inductive ManagerStep : ManagerState → ManagerState → Prop where
  | getNext (s : ManagerState) (e : StimEvent) (s' : ManagerState)
      (sigs : List ManagerSignal) :
      get_next_event s = some (e, s', sigs) → ManagerStep s s'
  | applyCh (s : ManagerState) : ManagerStep s (apply_changes s)
  | setCh (s : ManagerState) (c : Int) (s' : ManagerState) :
      set_channel s c = some s' → ManagerStep s s'
  | setAmp (s : ManagerState) (a : ℚ) (s' : ManagerState) :
      set_amplitude s a = some s' → ManagerStep s s'
  | setFreq (s : ManagerState) (hz : ℚ) (s' : ManagerState) :
      set_frequency s hz = some s' → ManagerStep s s'
  | setMode (s : ManagerState) (b : Bool) : ManagerStep s (set_update_mode s b)
  | rampFreq (s : ManagerState) (dir : RampDirection) (s' : ManagerState) :
      ramp_frequency s dir = Except.ok s' → ManagerStep s s'
  | rampFreqErr (s : ManagerState) (dir : RampDirection) (s' : ManagerState) :
      ramp_frequency s dir = Except.error s' → ManagerStep s s'
  | installRamps (s : ManagerState) (cur maxF maxD restF restD minF minD : ℚ)
      (rv : RampValues) :
      generate_all_frequency_ramps cur maxF maxD restF restD minF minD = some rv →
      ManagerStep s { s with frequency_ramp_values := some rv }
  | setStaged (s : ManagerState) (l : List StimEvent) :
      ManagerStep s { s with staged_events := l }
  | start (s : ManagerState) : ManagerStep s (manager_start s)
  | stop (s : ManagerState) : ManagerStep s (manager_stop s)

/-- States reachable from the freshly constructed manager through its public
operations and its controller's direct attribute writes. -/
inductive ManagerReachable : ManagerState → Prop where
  | init : ManagerReachable initialManagerState
  | step {s s' : ManagerState} :
      ManagerReachable s → ManagerStep s s' → ManagerReachable s'

/-- All ramp value lists installed in the manager are non-empty and hold
only positive frequencies — what `generate_single_frequency_ramp` produces
from a positive current frequency, positive targets and non-negative
durations. -/
def rampListsSafe (s : ManagerState) : Prop :=
  ∀ rv, s.frequency_ramp_values = some rv →
    (rv.current_to_max ≠ [] ∧ ∀ v ∈ rv.current_to_max, 0 < v) ∧
    (rv.current_to_rest ≠ [] ∧ ∀ v ∈ rv.current_to_rest, 0 < v) ∧
    (rv.current_to_min ≠ [] ∧ ∀ v ∈ rv.current_to_min, 0 < v)

/-- The manager's structural invariant: the active event list is never empty,
and installed ramp value lists are non-empty and positive. -/
def managerInv (s : ManagerState) : Prop :=
  s.events ≠ [] ∧ rampListsSafe s

/-- Like `ManagerStep`, but ramp installations come only from positive
endpoint frequencies and non-negative durations — the inputs the spec's
boundary validation (frequency > 0, duration ≥ 0) admits.  All other
operations, the exceptional `ramp_frequency` outcome included, are
unrestricted. -/
inductive ManagerStepPos : ManagerState → ManagerState → Prop where
  | getNext (s : ManagerState) (e : StimEvent) (s' : ManagerState)
      (sigs : List ManagerSignal) :
      get_next_event s = some (e, s', sigs) → ManagerStepPos s s'
  | applyCh (s : ManagerState) : ManagerStepPos s (apply_changes s)
  | setCh (s : ManagerState) (c : Int) (s' : ManagerState) :
      set_channel s c = some s' → ManagerStepPos s s'
  | setAmp (s : ManagerState) (a : ℚ) (s' : ManagerState) :
      set_amplitude s a = some s' → ManagerStepPos s s'
  | setFreq (s : ManagerState) (hz : ℚ) (s' : ManagerState) :
      set_frequency s hz = some s' → ManagerStepPos s s'
  | setMode (s : ManagerState) (b : Bool) : ManagerStepPos s (set_update_mode s b)
  | rampFreq (s : ManagerState) (dir : RampDirection) (s' : ManagerState) :
      ramp_frequency s dir = Except.ok s' → ManagerStepPos s s'
  | rampFreqErr (s : ManagerState) (dir : RampDirection) (s' : ManagerState) :
      ramp_frequency s dir = Except.error s' → ManagerStepPos s s'
  | installRamps (s : ManagerState) (cur maxF maxD restF restD minF minD : ℚ)
      (rv : RampValues) :
      generate_all_frequency_ramps cur maxF maxD restF restD minF minD = some rv →
      0 < cur → 0 < maxF → 0 < restF → 0 < minF →
      0 ≤ maxD → 0 ≤ restD → 0 ≤ minD →
      ManagerStepPos s { s with frequency_ramp_values := some rv }
  | setStaged (s : ManagerState) (l : List StimEvent) :
      ManagerStepPos s { s with staged_events := l }
  | start (s : ManagerState) : ManagerStepPos s (manager_start s)
  | stop (s : ManagerState) : ManagerStepPos s (manager_stop s)

/-- States reachable from the freshly constructed manager when every ramp
installation stems from validated (positive-frequency, non-negative-duration)
parameters. -/
inductive ManagerReachablePos : ManagerState → Prop where
  | init : ManagerReachablePos initialManagerState
  | step {s s' : ManagerState} :
      ManagerReachablePos s → ManagerStepPos s s' → ManagerReachablePos s'

/-! ## Theorems -/

/-- At `t = 0` the interpolation starts at the start frequency. -/
theorem freqAt_zero (f1 f2 d : ℚ) : freqAt f1 f2 d 0 = f1 := by
  simp [freqAt]

/-- Between times `0` and `d`, the linear interpolation stays within the
closed interval spanned by the endpoint frequencies. -/
theorem freqAt_bounds (f1 f2 d t : ℚ) (hd : 0 < d) (ht0 : 0 ≤ t) (htd : t ≤ d) :
    min f1 f2 ≤ freqAt f1 f2 d t ∧ freqAt f1 f2 d t ≤ max f1 f2 := by
  have hr0 : 0 ≤ t / d := div_nonneg ht0 (le_of_lt hd)
  have hr1 : t / d ≤ 1 := (div_le_one hd).mpr htd
  unfold freqAt
  rcases le_total f1 f2 with h | h
  · rw [min_eq_left h, max_eq_right h]
    constructor <;> nlinarith
  · rw [min_eq_right h, max_eq_left h]
    constructor <;> nlinarith

/-- If the stepping loop terminates within its fuel, the periods of the
frequencies it appended sum exactly to the time it advanced, the final time
is at most the duration and misses it by less than the largest pulse period
`1 / min f1 f2`, and every appended frequency lies in the endpoint range. -/
theorem rampLoop_sound (f1 f2 d : ℚ) (h1 : 0 < f1) (h2 : 0 < f2) (hd : 0 < d) :
    ∀ (fuel : ℕ) (t cf : ℚ) (l : List ℚ) (tf : ℚ),
      0 ≤ t → t ≤ d → cf = freqAt f1 f2 d t →
      rampLoop f1 f2 d fuel t cf = some (l, tf) →
      (l.map fun v => 1 / v).sum = tf - t ∧
        t ≤ tf ∧ tf ≤ d ∧ d - tf < 1 / min f1 f2 ∧
        ∀ v ∈ l, min f1 f2 ≤ v ∧ v ≤ max f1 f2 := by
  have hmin : 0 < min f1 f2 := lt_min h1 h2
  intro fuel
  induction fuel with
  | zero =>
    intro t cf l tf ht0 htd hcf h
    rw [rampLoop] at h
    split at h
    · exact absurd h (by simp)
    · rename_i hguard
      simp only [Option.some.injEq, Prod.mk.injEq] at h
      obtain ⟨hl, htf⟩ := h
      subst hl; subst htf
      have hcfb := freqAt_bounds f1 f2 d t hd ht0 htd
      rw [← hcf] at hcfb
      have hper : 1 / cf ≤ 1 / min f1 f2 :=
        one_div_le_one_div_of_le hmin hcfb.1
      refine ⟨by simp, le_refl t, htd, ?_, by simp⟩
      push_neg at hguard
      linarith
  | succ fuel ih =>
    intro t cf l tf ht0 htd hcf h
    rw [rampLoop] at h
    split at h
    · rename_i hguard
      rw [Option.map_eq_some'] at h
      obtain ⟨⟨l', tf'⟩, hrec, heq⟩ := h
      rw [Prod.mk.injEq] at heq
      obtain ⟨hl, htf⟩ := heq
      subst hl; subst htf
      have hcfb := freqAt_bounds f1 f2 d t hd ht0 htd
      rw [← hcf] at hcfb
      have hcfpos : 0 < cf := lt_of_lt_of_le hmin hcfb.1
      have hperpos : 0 < 1 / cf := by positivity
      have ht0' : 0 ≤ t + 1 / cf := by linarith
      have htd' : t + 1 / cf ≤ d := hguard
      obtain ⟨hsum, hle, hfd, hgap, hmem⟩ :=
        ih (t + 1 / cf) (freqAt f1 f2 d (t + 1 / cf)) l' tf' ht0' htd' rfl hrec
      refine ⟨?_, by linarith, hfd, hgap, ?_⟩
      · simp only [List.map_cons, List.sum_cons, hsum]
        ring
      · intro v hv
        rcases List.mem_cons.mp hv with hv | hv
        · subst hv; exact hcfb
        · exact hmem v hv
    · rename_i hguard
      simp only [Option.some.injEq, Prod.mk.injEq] at h
      obtain ⟨hl, htf⟩ := h
      subst hl; subst htf
      have hcfb := freqAt_bounds f1 f2 d t hd ht0 htd
      rw [← hcf] at hcfb
      have hper : 1 / cf ≤ 1 / min f1 f2 :=
        one_div_le_one_div_of_le hmin hcfb.1
      refine ⟨by simp, le_refl t, htd, ?_, by simp⟩
      push_neg at hguard
      linarith

/-- With strictly more fuel than `(d - t) * max f1 f2`, the stepping loop
terminates normally. -/
theorem rampLoop_total (f1 f2 d : ℚ) (h1 : 0 < f1) (h2 : 0 < f2) (hd : 0 < d) :
    ∀ (fuel : ℕ) (t cf : ℚ),
      0 ≤ t → t ≤ d → cf = freqAt f1 f2 d t →
      (d - t) * max f1 f2 < (fuel : ℚ) →
      ∃ p, rampLoop f1 f2 d fuel t cf = some p := by
  have hmin : 0 < min f1 f2 := lt_min h1 h2
  have hmax : 0 < max f1 f2 := lt_max_of_lt_left h1
  intro fuel
  induction fuel with
  | zero =>
    intro t cf ht0 htd hcf hfuel
    exfalso
    have : 0 ≤ (d - t) * max f1 f2 := mul_nonneg (by linarith) (le_of_lt hmax)
    simp only [Nat.cast_zero] at hfuel
    linarith
  | succ fuel ih =>
    intro t cf ht0 htd hcf hfuel
    rw [rampLoop]
    split
    · rename_i hguard
      have hcfb := freqAt_bounds f1 f2 d t hd ht0 htd
      rw [← hcf] at hcfb
      have hcfpos : 0 < cf := lt_of_lt_of_le hmin hcfb.1
      have hperpos : 0 < 1 / cf := by positivity
      have hstep : 1 ≤ (1 / cf) * max f1 f2 := by
        rw [div_mul_eq_mul_div, one_mul, le_div_iff₀ hcfpos, one_mul]
        exact hcfb.2
      have hfuel' : (d - (t + 1 / cf)) * max f1 f2 < (fuel : ℚ) := by
        have hcast : ((fuel + 1 : ℕ) : ℚ) = (fuel : ℚ) + 1 := by push_cast; ring
        rw [hcast] at hfuel
        nlinarith
      obtain ⟨p, hp⟩ :=
        ih (t + 1 / cf) (freqAt f1 f2 d (t + 1 / cf)) (by linarith) hguard rfl hfuel'
      exact ⟨(cf :: p.1, p.2), by rw [hp]; rfl⟩
    · exact ⟨([], t), rfl⟩

/-- The sorting pass is a permutation: Python's `sorted` only reorders. -/
theorem sortRamp_perm (f1 f2 : ℚ) (l : List ℚ) : (sortRamp f1 f2 l).Perm l := by
  unfold sortRamp
  split
  · exact List.perm_insertionSort _ l
  · exact List.perm_insertionSort _ l

/-- The fuel handed to the loop exceeds `d * max f1 f2`. -/
theorem rampFuel_large (f1 f2 d : ℚ) (h1 : 0 < f1) (hd : 0 < d) :
    d * max f1 f2 < (rampFuel f1 f2 d : ℚ) := by
  have hmax : 0 < max f1 f2 := lt_max_of_lt_left h1
  have hpos : 0 ≤ d * max f1 f2 := by positivity
  have hceil : (0 : ℤ) ≤ ⌈d * max f1 f2⌉ := Int.ceil_nonneg hpos
  have hle : d * max f1 f2 ≤ (⌈d * max f1 f2⌉ : ℚ) := Int.le_ceil _
  have hq : ((⌈d * max f1 f2⌉.toNat : ℕ) : ℚ) = ((⌈d * max f1 f2⌉ : ℤ) : ℚ) := by
    exact_mod_cast Int.toNat_of_nonneg hceil
  have hfq : (rampFuel f1 f2 d : ℚ) = (⌈d * max f1 f2⌉ : ℚ) + 1 := by
    unfold rampFuel
    push_cast
    rw [hq]
  rw [hfq]
  linarith

/-- Combined specification of `generate_single_frequency_ramp` for positive
inputs: it succeeds, the sum of the implied periods lands within the largest
pulse period `1 / min f1 f2` of the requested duration, and every returned
frequency lies in the closed endpoint range. -/
theorem generate_single_frequency_ramp_spec (f1 f2 d : ℚ)
    (h1 : 0 < f1) (h2 : 0 < f2) (hd : 0 < d) :
    ∃ l, generate_single_frequency_ramp f1 f2 d = some l ∧
      |(l.map fun v => 1 / v).sum - d| ≤ 1 / min f1 f2 ∧
      ∀ v ∈ l, min f1 f2 ≤ v ∧ v ≤ max f1 f2 := by
  have hmin : 0 < min f1 f2 := lt_min h1 h2
  have hd0 : d ≠ 0 := ne_of_gt hd
  obtain ⟨⟨results, t⟩, hloop⟩ :=
    rampLoop_total f1 f2 d h1 h2 hd (rampFuel f1 f2 d) 0 f1 le_rfl (le_of_lt hd)
      (freqAt_zero f1 f2 d).symm
      (by simpa using rampFuel_large f1 f2 d h1 hd)
  obtain ⟨hsum, ht0, htd, hgap, hmem⟩ :=
    rampLoop_sound f1 f2 d h1 h2 hd (rampFuel f1 f2 d) 0 f1 results t le_rfl
      (le_of_lt hd) (freqAt_zero f1 f2 d).symm hloop
  rw [sub_zero] at hsum
  refine ⟨sortRamp f1 f2 (correctedResults f1 f2 d t results ++ [f2]), ?_, ?_, ?_⟩
  · unfold generate_single_frequency_ramp
    rw [if_neg hd0, hloop]
  · have hperm :
        ((sortRamp f1 f2 (correctedResults f1 f2 d t results ++ [f2])).map
            fun v => 1 / v).Perm
          ((correctedResults f1 f2 d t results ++ [f2]).map fun v => 1 / v) :=
      (sortRamp_perm f1 f2 _).map _
    rw [hperm.sum_eq]
    have hf2per : 1 / f2 ≤ 1 / min f1 f2 :=
      one_div_le_one_div_of_le hmin (min_le_right f1 f2)
    have hf2pos : 0 < 1 / f2 := by positivity
    unfold correctedResults
    by_cases ht : t < d
    · rw [if_pos ht]
      by_cases hc : min f1 f2 < 1 / (d - t) ∧ 1 / (d - t) < max f1 f2
      · rw [if_pos hc]
        have hdt : d - t ≠ 0 := sub_ne_zero.mpr ht.ne'
        simp only [List.map_append, List.sum_append, List.map_cons,
          List.map_nil, List.sum_cons, List.sum_nil, hsum, one_div_one_div]
        rw [abs_le]
        constructor <;> [linarith; linarith]
      · rw [if_neg hc]
        simp only [List.map_append, List.sum_append, List.map_cons,
          List.map_nil, List.sum_cons, List.sum_nil, hsum]
        rw [abs_le]
        constructor <;> [linarith; linarith]
    · rw [if_neg ht]
      have ht' : t = d := le_antisymm htd (not_lt.mp ht)
      simp only [List.map_append, List.sum_append, List.map_cons,
        List.map_nil, List.sum_cons, List.sum_nil, hsum, ht']
      rw [abs_le]
      constructor <;> [linarith; linarith]
  · intro v hv
    have hv' : v ∈ correctedResults f1 f2 d t results ++ [f2] :=
      (sortRamp_perm f1 f2 _).mem_iff.mp hv
    rcases List.mem_append.mp hv' with hv'' | hv''
    · unfold correctedResults at hv''
      split at hv''
      · split at hv''
        · rcases List.mem_append.mp hv'' with hr | hcand
          · exact hmem v hr
          · rename_i hc
            rcases List.mem_singleton.mp hcand with rfl
            exact ⟨le_of_lt hc.1, le_of_lt hc.2⟩
        · exact hmem v hv''
      · exact hmem v hv''
    · rcases List.mem_singleton.mp hv'' with rfl
      exact ⟨min_le_right _ _, le_max_right _ _⟩

/-- `generate_single_frequency_ramp` always ends by appending the end
frequency, so a successful result is never empty. -/
theorem generate_single_frequency_ramp_ne_nil (f1 f2 d : ℚ) (l : List ℚ)
    (h : generate_single_frequency_ramp f1 f2 d = some l) : l ≠ [] := by
  unfold generate_single_frequency_ramp at h
  split at h
  · simp only [Option.some.injEq] at h
    subst h
    simp
  · split at h
    · exact absurd h (by simp)
    · simp only [Option.some.injEq] at h
      subst h
      intro hnil
      have hlen := congrArg List.length hnil
      rw [(sortRamp_perm _ _ _).length_eq] at hlen
      simp at hlen

/-- C1: for positive start frequency, end frequency and duration, the
frequency ramp generator (`generate_single_frequency_ramp`) succeeds and the
sum of the implied periods `Σ 1/vᵢ` differs from the requested duration by at
most one pulse period, taking "one pulse period" as the longest period
implied by any frequency in the ramp's range, `1 / min f1 f2`. -/
theorem c1_frequency_ramp_period_sum (f1 f2 d : ℚ)
    (h1 : 0 < f1) (h2 : 0 < f2) (hd : 0 < d) :
    ∃ l, generate_single_frequency_ramp f1 f2 d = some l ∧
      |(l.map fun v => 1 / v).sum - d| ≤ 1 / min f1 f2 := by
  obtain ⟨l, hgen, hsum, _⟩ := generate_single_frequency_ramp_spec f1 f2 d h1 h2 hd
  exact ⟨l, hgen, hsum⟩

/-- Witness for C1 at `f1 = 1`, `f2 = 2`, `d = 1`. -/
theorem c1_frequency_ramp_period_sum_witness :
    ∃ l, generate_single_frequency_ramp 1 2 1 = some l ∧
      |(l.map fun v => 1 / v).sum - 1| ≤ 1 / min 1 2 :=
  c1_frequency_ramp_period_sum 1 2 1 (by norm_num) (by norm_num) (by norm_num)

/-- C6: with duration `0`, the frequency ramp generator returns exactly the
one-element list holding the end frequency (not the start frequency). -/
theorem c6_frequency_ramp_zero_duration (f1 f2 : ℚ)
    (h1 : 0 < f1) (h2 : 0 < f2) :
    generate_single_frequency_ramp f1 f2 0 = some [f2] := by
  unfold generate_single_frequency_ramp
  rw [if_pos rfl]

/-- Witness for C6 at `f1 = 1`, `f2 = 2`. -/
theorem c6_frequency_ramp_zero_duration_witness :
    generate_single_frequency_ramp 1 2 0 = some [2] :=
  c6_frequency_ramp_zero_duration 1 2 (by norm_num) (by norm_num)

/-- C7: for positive start frequency, end frequency and duration, the
frequency ramp generator succeeds (discarding an out-of-range
duration-correcting candidate never raises) and every returned frequency lies
in the closed interval `[min f1 f2, max f1 f2]` — in particular the candidate
`1 / remaining_time` is only ever appended when strictly inside that range. -/
theorem c7_frequency_ramp_range (f1 f2 d : ℚ)
    (h1 : 0 < f1) (h2 : 0 < f2) (hd : 0 < d) :
    ∃ l, generate_single_frequency_ramp f1 f2 d = some l ∧
      ∀ v ∈ l, min f1 f2 ≤ v ∧ v ≤ max f1 f2 := by
  obtain ⟨l, hgen, _, hrange⟩ := generate_single_frequency_ramp_spec f1 f2 d h1 h2 hd
  exact ⟨l, hgen, hrange⟩

/-- Witness for C7 at `f1 = 2`, `f2 = 1`, `d = 1` (a descending ramp whose
correction candidate `1/(d-t) = 2` is discarded for hitting the boundary). -/
theorem c7_frequency_ramp_range_witness :
    ∃ l, generate_single_frequency_ramp 2 1 1 = some l ∧
      ∀ v ∈ l, min 2 1 ≤ v ∧ v ≤ max 2 1 :=
  c7_frequency_ramp_range 2 1 1 (by norm_num) (by norm_num) (by norm_num)

/-- `linspace` always produces exactly `n` samples. -/
theorem linspace_length (a b : ℚ) (n : ℕ) : (linspace a b n).length = n := by
  unfold linspace
  split
  · exact List.length_replicate n a
  · simp

/-- For at least one sample, `linspace` starts at `a`. -/
theorem linspace_head (a b : ℚ) (n : ℕ) (hn : 1 ≤ n) :
    (linspace a b n).head? = some a := by
  unfold linspace
  split
  · rename_i h
    have hn1 : n = 1 := le_antisymm h hn
    subst hn1
    rfl
  · rename_i h
    obtain ⟨m, rfl⟩ : ∃ m, n = m + 1 := ⟨n - 1, by omega⟩
    rw [List.range_succ_eq_map]
    simp

/-- For at least two samples, `linspace` ends exactly at `b`. -/
theorem linspace_getLast (a b : ℚ) (n : ℕ) (hn : 2 ≤ n) :
    (linspace a b n).getLast? = some b := by
  unfold linspace
  rw [if_neg (by omega)]
  obtain ⟨m, rfl⟩ : ∃ m, n = m + 1 := ⟨n - 1, by omega⟩
  rw [List.range_succ, List.map_append, List.map_cons, List.map_nil,
    List.getLast?_concat]
  have hm : (m : ℚ) ≠ 0 := Nat.cast_ne_zero.mpr (by omega)
  have hcast : ((m + 1 : ℕ) : ℚ) - 1 = (m : ℚ) := by push_cast; ring
  rw [hcast, mul_div_assoc, div_self hm, mul_one]
  exact congrArg some (by ring)

/-- C8 counterexample: at `a1 = 0`, `a2 = 10`, `d = 1`, `f = 2` the
intermediate count is `n = 2`, so the claim demands the two linearly spaced
values `[0, 10]` (first element `a1`); the code instead special-cases `n = 2`
and returns the midpoint followed by the end, `[5, 10]`. -/
theorem c8_amplitude_ramp_counterexample :
    intTrunc ((1 : ℚ) / (1 / 2)) = 2 ∧
    linspace 0 10 2 = [0, 10] ∧
    generate_single_amplitude_ramp 0 10 1 2 = [5, 10] ∧
    generate_single_amplitude_ramp 0 10 1 2 ≠ [0, 10] := by
  have h2 : intTrunc ((1 : ℚ) / (1 / 2)) = 2 := by
    unfold intTrunc
    norm_num
  have hls : linspace 0 10 2 = [0, 10] := by
    unfold linspace
    norm_num [List.range_succ]
  have hgen : generate_single_amplitude_ramp 0 10 1 2 = [5, 10] := by
    unfold generate_single_amplitude_ramp
    rw [h2]
    norm_num
  refine ⟨h2, hls, hgen, ?_⟩
  rw [hgen]
  intro hcontra
  have := List.head_eq_of_cons_eq hcontra
  norm_num at this

/-- C8 amended: with `n = int(d / (1/f))` intermediates, the amplitude ramp
generator returns `n` linearly spaced values from `a1` to `a2` inclusive only
when `n ≥ 3`; `n = 2` yields the special case `[(a1+a2)/2, a2]` (the first
element is the midpoint, not `a1`); `n = 1` yields `[a2]`; and `n = 0`
(duration shorter than one period) yields the empty list, not `[a2]`. -/
theorem c8_amplitude_ramp_cases (a1 a2 d f : ℚ) :
    (intTrunc (d / (1 / f)) = 0 → generate_single_amplitude_ramp a1 a2 d f = []) ∧
    (intTrunc (d / (1 / f)) = 1 →
      generate_single_amplitude_ramp a1 a2 d f = [a2]) ∧
    (intTrunc (d / (1 / f)) = 2 →
      generate_single_amplitude_ramp a1 a2 d f = [(a1 + a2) / 2, a2]) ∧
    ∀ n : ℤ, 3 ≤ n → intTrunc (d / (1 / f)) = n →
      generate_single_amplitude_ramp a1 a2 d f = linspace a1 a2 n.toNat ∧
        (linspace a1 a2 n.toNat).length = n.toNat ∧
        (linspace a1 a2 n.toNat).head? = some a1 ∧
        (linspace a1 a2 n.toNat).getLast? = some a2 := by
  refine ⟨?_, ?_, ?_, ?_⟩
  · intro h
    unfold generate_single_amplitude_ramp
    rw [h, if_neg (by decide), if_neg (by decide)]
    rfl
  · intro h
    unfold generate_single_amplitude_ramp
    rw [h]
    rfl
  · intro h
    unfold generate_single_amplitude_ramp
    rw [h]
    rfl
  · intro n hn h
    have hne1 : n ≠ 1 := by omega
    have hne2 : n ≠ 2 := by omega
    have htn : 2 ≤ n.toNat := by omega
    refine ⟨?_, linspace_length a1 a2 n.toNat,
      linspace_head a1 a2 n.toNat (by omega), linspace_getLast a1 a2 n.toNat htn⟩
    unfold generate_single_amplitude_ramp
    rw [h, if_neg hne1, if_neg hne2]

/-- Witness for the amended C8 at `a1 = 0`, `a2 = 9`, `d = 3`, `f = 1`
(count 3). -/
theorem c8_amplitude_ramp_cases_witness :
    generate_single_amplitude_ramp 0 9 3 1 = linspace 0 9 3 ∧
      (linspace 0 9 3).length = (3 : ℤ).toNat ∧
      (linspace 0 9 3).head? = some 0 ∧
      (linspace 0 9 3).getLast? = some 9 :=
  (c8_amplitude_ramp_cases 0 9 3 1).2.2.2 3 (by norm_num)
    (by unfold intTrunc; norm_num)

/-- C5: `get_next_event` on a single-element active list returns that event
and leaves the state unchanged (steady state); on a list of two or more it
removes and returns the head; in both cases the only notification emitted is
`signal_event_updated` with the effective event. -/
theorem c5_get_next_event_cases (s : ManagerState) :
    (∀ e, s.events = [e] →
        get_next_event s = some (e, s, [ManagerSignal.eventUpdated e])) ∧
    (∀ e rest, s.events = e :: rest → rest ≠ [] →
        get_next_event s = some (e, { s with events := rest },
          [ManagerSignal.eventUpdated e])) := by
  constructor
  · intro e he
    unfold get_next_event
    rw [he]
  · intro e rest he hrest
    unfold get_next_event
    rw [he]
    cases rest with
    | nil => exact absurd rfl hrest
    | cons r rs => rfl

/-- Witness for C5 at the freshly constructed manager (steady-state case). -/
theorem c5_get_next_event_cases_witness :
    get_next_event initialManagerState =
      some (⟨0, 30, 0, 1 / 30⟩, initialManagerState,
        [ManagerSignal.eventUpdated ⟨0, 30, 0, 1 / 30⟩]) :=
  (c5_get_next_event_cases initialManagerState).1 ⟨0, 30, 0, 1 / 30⟩ rfl

/-- C9 counterexample: on the freshly constructed manager the staged list is
empty, and `apply_changes` leaves `events` at its old (non-empty) value, so
`events` does not equal the value `staged_events` held at the call. -/
theorem c9_apply_changes_counterexample :
    initialManagerState.staged_events = [] ∧
    (apply_changes initialManagerState).events ≠ initialManagerState.staged_events := by
  refine ⟨rfl, fun h => ?_⟩
  have h2 : ([⟨0, 30, 0, 1 / 30⟩] : List StimEvent) = [] := h
  exact List.cons_ne_nil _ _ h2

/-- C9 amended: `apply_changes` replaces `events` with a copy of
`staged_events` only when `staged_events` is non-empty; with an empty staged
list the state is unchanged.  In either case, a later restaging (the
manager's only mutation of `staged_events`) leaves `events` untouched,
reflecting the `.copy()` in the source. -/
theorem c9_apply_changes_amended (s : ManagerState) :
    (s.staged_events ≠ [] → (apply_changes s).events = s.staged_events) ∧
    (s.staged_events = [] → apply_changes s = s) ∧
    (∀ s' b, stage_new_stim_event (apply_changes s) b = some s' →
      s'.events = (apply_changes s).events) := by
  refine ⟨?_, ?_, ?_⟩
  · intro h
    unfold apply_changes
    rw [if_neg h]
  · intro h
    unfold apply_changes
    rw [if_pos h]
  · intro s' b h
    unfold stage_new_stim_event at h
    split at h
    · exact absurd h (by simp)
    · simp only [Option.some.injEq] at h
      subst h
      rfl

/-- Witness for the amended C9: a staged single event is copied into
`events` by `apply_changes`. -/
theorem c9_apply_changes_amended_witness :
    (apply_changes { initialManagerState with
        staged_events := [⟨1, 2, 3, 1 / 2⟩] }).events = [⟨1, 2, 3, 1 / 2⟩] :=
  (c9_apply_changes_amended
    { initialManagerState with staged_events := [⟨1, 2, 3, 1 / 2⟩] }).1
    (List.cons_ne_nil _ _)

/-- `set_frequency` with a non-zero argument always succeeds: the new
frequency is stored, a single event carrying it is staged, the installed ramp
values are untouched, and the active list is replaced by the staged copy
exactly when live updates are on. -/
theorem set_frequency_spec (s : ManagerState) (hz : ℚ) (hz0 : hz ≠ 0) :
    ∃ s', set_frequency s hz = some s' ∧
      s'.current_frequency = hz ∧
      s'.staged_events = [⟨s.current_channel, hz, s.current_amplitude, 1 / hz⟩] ∧
      s'.frequency_ramp_values = s.frequency_ramp_values ∧
      (s.are_updates_live = false → s'.events = s.events) ∧
      (s.are_updates_live = true →
        s'.events = [⟨s.current_channel, hz, s.current_amplitude, 1 / hz⟩]) := by
  cases hlive : s.are_updates_live with
  | true =>
    refine ⟨{ s with current_frequency := hz, parameters_changed := true, staged_events := [⟨s.current_channel, hz, s.current_amplitude, 1 / hz⟩], events := [⟨s.current_channel, hz, s.current_amplitude, 1 / hz⟩] }, ?_, rfl, rfl, rfl, ?_, ?_⟩
    · simp [set_frequency, parameters_changed_callback, stage_new_stim_event,
        apply_changes, hz0, hlive]
    · intro h
      exact absurd h (by simp)
    · intro h
      rfl
  | false =>
    refine ⟨{ s with current_frequency := hz, parameters_changed := true, staged_events := [⟨s.current_channel, hz, s.current_amplitude, 1 / hz⟩] }, ?_, rfl, rfl, rfl, ?_, ?_⟩
    · simp [set_frequency, parameters_changed_callback, stage_new_stim_event,
        hz0, hlive]
    · intro h
      rfl
    · intro h
      exact absurd h (by simp)

/-- `set_frequency 0` crashes while staging (`1/current_frequency` raises
`ZeroDivisionError` in the source). -/
theorem set_frequency_zero (s : ManagerState) : set_frequency s 0 = none := by
  simp [set_frequency, parameters_changed_callback, stage_new_stim_event]

/-- C4 counterexample: `set_frequency(-5)` on the freshly constructed manager
(current frequency 30, staged list empty) is not rejected — it completes,
stores the invalid frequency `-5` and stages an event with negative period,
so the prior valid state is not retained. -/
theorem c4_set_frequency_counterexample :
    set_frequency initialManagerState (-5) =
      some { initialManagerState with
              current_frequency := -5
              parameters_changed := true
              staged_events := [⟨0, -5, 0, 1 / (-5)⟩] } ∧
    initialManagerState.current_frequency = 30 ∧
    initialManagerState.staged_events = [] := by
  refine ⟨?_, rfl, rfl⟩
  simp [set_frequency, parameters_changed_callback, stage_new_stim_event,
    initialManagerState]

/-- C4 (amended): `set_frequency` performs no validation at the manager
boundary: every non-zero frequency — negative values included — is accepted,
stored and staged (applied to the active list immediately when live updates
are on, with the active list left alone in batched mode), while frequency 0
makes the staging step raise a division-by-zero error. -/
theorem c4_set_frequency_amended (s : ManagerState) (hz : ℚ) (hz0 : hz ≠ 0) :
    (∃ s', set_frequency s hz = some s' ∧
      s'.current_frequency = hz ∧
      s'.staged_events = [⟨s.current_channel, hz, s.current_amplitude, 1 / hz⟩] ∧
      (s.are_updates_live = false → s'.events = s.events) ∧
      (s.are_updates_live = true →
        s'.events = [⟨s.current_channel, hz, s.current_amplitude, 1 / hz⟩])) ∧
    set_frequency s 0 = none := by
  obtain ⟨s', h1, h2, h3, _, h5, h6⟩ := set_frequency_spec s hz hz0
  exact ⟨⟨s', h1, h2, h3, h5, h6⟩, set_frequency_zero s⟩

/-- Witness for the amended C4: `hz = 15` on the freshly constructed manager
switched to live-update mode, exercising the immediate-apply conjunct. -/
theorem c4_set_frequency_amended_witness :
    (∃ s', set_frequency { initialManagerState with are_updates_live := true }
        15 = some s' ∧
      s'.current_frequency = 15 ∧
      s'.staged_events = [⟨0, 15, 0, 1 / 15⟩] ∧
      (({ initialManagerState with
          are_updates_live := true } : ManagerState).are_updates_live = false →
        s'.events = ({ initialManagerState with
          are_updates_live := true } : ManagerState).events) ∧
      (({ initialManagerState with
          are_updates_live := true } : ManagerState).are_updates_live = true →
        s'.events = [⟨0, 15, 0, 1 / 15⟩])) ∧
    set_frequency { initialManagerState with are_updates_live := true } 0 =
      none :=
  c4_set_frequency_amended { initialManagerState with are_updates_live := true }
    15 (by norm_num)

/-- C2: evaluation at the failing input.  With two events left from a ramp
and a non-ramp change staged, `get_next_event` pops down to exactly one
remaining event but emits only `signal_event_updated`: no ramp-finished
(`signal_last_ramp_event`) notification is fired (the manager never emits
one anywhere), and the staged change is not applied — `staged_events` is
left pending and `events` is not replaced by it. -/
theorem c2_get_next_event_no_ramp_finished :
    get_next_event { initialManagerState with
        events := [⟨0, 31, 0, 1 / 31⟩, ⟨0, 60, 0, 1 / 60⟩]
        staged_events := [⟨0, 45, 5, 1 / 45⟩] } =
      some (⟨0, 31, 0, 1 / 31⟩,
        { initialManagerState with
            events := [⟨0, 60, 0, 1 / 60⟩]
            staged_events := [⟨0, 45, 5, 1 / 45⟩] },
        [ManagerSignal.eventUpdated ⟨0, 31, 0, 1 / 31⟩]) ∧
    ([ManagerSignal.eventUpdated ⟨0, 31, 0, 1 / 31⟩].filter
        ManagerSignal.isLastRamp) = [] ∧
    ([⟨0, 60, 0, 1 / 60⟩] : List StimEvent) ≠ [⟨0, 45, 5, 1 / 45⟩] := by
  refine ⟨rfl, rfl, ?_⟩
  intro h
  have h31 : ((60 : ℚ) = 45 ∧ (0 : ℚ) = 5) → False := by norm_num
  injection h with h1 h2
  injection h1 with hc hf ha hp
  exact h31 ⟨hf, ha⟩

/-- C3: evaluation at the failing input.  The `workers/` variant of
`StimWorker.stop` zeroes the DAQ exactly once, but the `core/` variant —
whose docstring promises to set all channels to zero — clears the running
flag without issuing any DAQ call. -/
theorem c3_stop_zero_all_eval :
    core_stim_worker_stop ⟨true⟩ = (⟨false⟩, []) ∧
    (core_stim_worker_stop ⟨true⟩).2.count DAQCall.zeroAllCall = 0 ∧
    workers_stim_worker_stop ⟨true⟩ = (⟨false⟩, [DAQCall.zeroAllCall]) ∧
    (workers_stim_worker_stop ⟨true⟩).2.count DAQCall.zeroAllCall = 1 := by
  exact ⟨rfl, rfl, rfl, rfl⟩

/-- A successful `generate_all_frequency_ramps` packs three non-empty lists. -/
theorem generate_all_frequency_ramps_ne_nil
    (cur maxF maxD restF restD minF minD : ℚ) (rv : RampValues)
    (h : generate_all_frequency_ramps cur maxF maxD restF restD minF minD =
      some rv) :
    rv.current_to_max ≠ [] ∧ rv.current_to_rest ≠ [] ∧
      rv.current_to_min ≠ [] := by
  unfold generate_all_frequency_ramps at h
  obtain ⟨a, ha, h⟩ := Option.bind_eq_some.mp h
  obtain ⟨b, hb, h⟩ := Option.bind_eq_some.mp h
  obtain ⟨c, hc, h⟩ := Option.bind_eq_some.mp h
  simp only [pure, Option.some.injEq] at h
  subst h
  exact ⟨generate_single_frequency_ramp_ne_nil cur maxF maxD a ha,
    generate_single_frequency_ramp_ne_nil cur restF restD b hb,
    generate_single_frequency_ramp_ne_nil cur minF minD c hc⟩

/-- Any state produced by `_parameters_changed_callback` keeps the installed
ramp values, and its active list is either the old one or a fresh
single-event list. -/
theorem parameters_changed_callback_shape (s s' : ManagerState)
    (h : parameters_changed_callback s = some s') :
    (s'.events = s.events ∨ ∃ e, s'.events = [e]) ∧
      s'.frequency_ramp_values = s.frequency_ramp_values := by
  by_cases hz : s.current_frequency = 0
  · simp [parameters_changed_callback, stage_new_stim_event, hz] at h
  · by_cases hlive : s.are_updates_live
    · simp [parameters_changed_callback, stage_new_stim_event, apply_changes,
        hz, hlive] at h
      subst h
      constructor
      · right
        exact ⟨_, rfl⟩
      · rfl
    · simp [parameters_changed_callback, stage_new_stim_event, hz, hlive] at h
      subst h
      exact ⟨Or.inl rfl, rfl⟩

/-- A list of positive rationals passes the `(· ≠ 0)` check of
`ramp_frequency`. -/
theorem all_ne_zero_of_pos {l : List ℚ} (h : ∀ v ∈ l, 0 < v) :
    (l.all fun v => v ≠ 0) = true := by
  rw [List.all_eq_true]
  intro v hv
  simpa using ne_of_gt (h v hv)

/-- With positive endpoint frequencies and a non-negative duration, every
frequency in a `generate_single_frequency_ramp` output is positive. -/
theorem generate_single_frequency_ramp_pos (f1 f2 d : ℚ) (h1 : 0 < f1)
    (h2 : 0 < f2) (hd : 0 ≤ d) (l : List ℚ)
    (h : generate_single_frequency_ramp f1 f2 d = some l) :
    ∀ v ∈ l, 0 < v := by
  rcases eq_or_lt_of_le hd with hd0 | hdpos
  · subst hd0
    unfold generate_single_frequency_ramp at h
    rw [if_pos rfl] at h
    simp only [Option.some.injEq] at h
    subst h
    intro v hv
    rcases List.mem_singleton.mp hv with rfl
    exact h2
  · obtain ⟨l2, hgen, _, hrange⟩ :=
      generate_single_frequency_ramp_spec f1 f2 d h1 h2 hdpos
    rw [h] at hgen
    simp only [Option.some.injEq] at hgen
    subst hgen
    intro v hv
    exact lt_of_lt_of_le (lt_min h1 h2) (hrange v hv).1

/-- With positive endpoint frequencies and non-negative durations, a
successful `generate_all_frequency_ramps` packs three non-empty lists of
positive frequencies. -/
theorem generate_all_frequency_ramps_safe
    (cur maxF maxD restF restD minF minD : ℚ) (rv : RampValues)
    (h : generate_all_frequency_ramps cur maxF maxD restF restD minF minD =
      some rv)
    (hcur : 0 < cur) (hmaxF : 0 < maxF) (hrestF : 0 < restF) (hminF : 0 < minF)
    (hmaxD : 0 ≤ maxD) (hrestD : 0 ≤ restD) (hminD : 0 ≤ minD) :
    (rv.current_to_max ≠ [] ∧ ∀ v ∈ rv.current_to_max, 0 < v) ∧
      (rv.current_to_rest ≠ [] ∧ ∀ v ∈ rv.current_to_rest, 0 < v) ∧
      (rv.current_to_min ≠ [] ∧ ∀ v ∈ rv.current_to_min, 0 < v) := by
  unfold generate_all_frequency_ramps at h
  obtain ⟨a, ha, h⟩ := Option.bind_eq_some.mp h
  obtain ⟨b, hb, h⟩ := Option.bind_eq_some.mp h
  obtain ⟨c, hc, h⟩ := Option.bind_eq_some.mp h
  simp only [pure, Option.some.injEq] at h
  subst h
  exact ⟨⟨generate_single_frequency_ramp_ne_nil cur maxF maxD a ha,
      generate_single_frequency_ramp_pos cur maxF maxD hcur hmaxF hmaxD a ha⟩,
    ⟨generate_single_frequency_ramp_ne_nil cur restF restD b hb,
      generate_single_frequency_ramp_pos cur restF restD hcur hrestF hrestD b hb⟩,
    ⟨generate_single_frequency_ramp_ne_nil cur minF minD c hc,
      generate_single_frequency_ramp_pos cur minF minD hcur hminF hminD c hc⟩⟩

/-- Every positive-install manager transition preserves the structural
invariant.  The exceptional `ramp_frequency` outcome is unreachable here:
installed ramp lists are positive, so the `(· ≠ 0)` check always passes. -/
theorem managerStepPos_preserves_inv {s s' : ManagerState}
    (hstep : ManagerStepPos s s') (hinv : managerInv s) : managerInv s' := by
  obtain ⟨hev, hramp⟩ := hinv
  cases hstep with
  | getNext e s2 sigs h =>
    unfold get_next_event at h
    rcases hE : s.events with _ | ⟨a, rest⟩
    · rw [hE] at h
      exact absurd h (by simp)
    · rcases rest with _ | ⟨b, bs⟩
      · rw [hE] at h
        simp only [Option.some.injEq, Prod.mk.injEq] at h
        obtain ⟨-, h2, -⟩ := h
        subst h2
        exact ⟨hev, hramp⟩
      · rw [hE] at h
        simp only [Option.some.injEq, Prod.mk.injEq] at h
        obtain ⟨-, h2, -⟩ := h
        subst h2
        exact ⟨by simp, hramp⟩
  | applyCh =>
    unfold apply_changes
    split
    · exact ⟨hev, hramp⟩
    · rename_i hne
      exact ⟨hne, hramp⟩
  | setCh c s2 h =>
    obtain ⟨hcases, hfr⟩ := parameters_changed_callback_shape _ _ h
    refine ⟨?_, fun rv hrv => hramp rv (hfr ▸ hrv)⟩
    rcases hcases with h1 | ⟨e, h1⟩
    · rw [h1]; exact hev
    · rw [h1]; exact List.cons_ne_nil _ _
  | setAmp a s2 h =>
    obtain ⟨hcases, hfr⟩ := parameters_changed_callback_shape _ _ h
    refine ⟨?_, fun rv hrv => hramp rv (hfr ▸ hrv)⟩
    rcases hcases with h1 | ⟨e, h1⟩
    · rw [h1]; exact hev
    · rw [h1]; exact List.cons_ne_nil _ _
  | setFreq hz s2 h =>
    obtain ⟨hcases, hfr⟩ := parameters_changed_callback_shape _ _ h
    refine ⟨?_, fun rv hrv => hramp rv (hfr ▸ hrv)⟩
    rcases hcases with h1 | ⟨e, h1⟩
    · rw [h1]; exact hev
    · rw [h1]; exact List.cons_ne_nil _ _
  | setMode b =>
    simp only [set_update_mode]
    split
    · unfold apply_changes
      split
      · exact ⟨hev, hramp⟩
      · rename_i hne
        exact ⟨hne, hramp⟩
    · exact ⟨hev, hramp⟩
  | rampFreq dir s2 h =>
    rcases hE : s.frequency_ramp_values with _ | rv
    · simp only [ramp_frequency, hE, Except.ok.injEq] at h
      subst h
      exact ⟨hev, hramp⟩
    · obtain ⟨⟨hmaxne, hmaxpos⟩, ⟨hrestne, hrestpos⟩, ⟨hminne, hminpos⟩⟩ :=
        hramp rv hE
      simp only [ramp_frequency, hE] at h
      cases dir with
      | toMax =>
        split at h
        · simp only [Except.ok.injEq] at h
          subst h
          refine ⟨by simpa using hmaxne, fun rv2 hrv2 => ?_⟩
          have h2 : some rv = some rv2 := hrv2
          simp only [Option.some.injEq] at h2
          subst h2
          exact ⟨⟨hmaxne, hmaxpos⟩, ⟨hrestne, hrestpos⟩, ⟨hminne, hminpos⟩⟩
        · rename_i hcond
          exact absurd (all_ne_zero_of_pos hmaxpos) hcond
      | toRest =>
        split at h
        · simp only [Except.ok.injEq] at h
          subst h
          refine ⟨by simpa using hrestne, fun rv2 hrv2 => ?_⟩
          have h2 : some rv = some rv2 := hrv2
          simp only [Option.some.injEq] at h2
          subst h2
          exact ⟨⟨hmaxne, hmaxpos⟩, ⟨hrestne, hrestpos⟩, ⟨hminne, hminpos⟩⟩
        · rename_i hcond
          exact absurd (all_ne_zero_of_pos hrestpos) hcond
      | toMin =>
        split at h
        · simp only [Except.ok.injEq] at h
          subst h
          refine ⟨by simpa using hminne, fun rv2 hrv2 => ?_⟩
          have h2 : some rv = some rv2 := hrv2
          simp only [Option.some.injEq] at h2
          subst h2
          exact ⟨⟨hmaxne, hmaxpos⟩, ⟨hrestne, hrestpos⟩, ⟨hminne, hminpos⟩⟩
        · rename_i hcond
          exact absurd (all_ne_zero_of_pos hminpos) hcond
  | rampFreqErr dir s2 h =>
    rcases hE : s.frequency_ramp_values with _ | rv
    · simp only [ramp_frequency, hE] at h
      exact Except.noConfusion h
    · obtain ⟨⟨hmaxne, hmaxpos⟩, ⟨hrestne, hrestpos⟩, ⟨hminne, hminpos⟩⟩ :=
        hramp rv hE
      simp only [ramp_frequency, hE] at h
      cases dir with
      | toMax =>
        split at h
        · exact Except.noConfusion h
        · rename_i hcond
          exact absurd (all_ne_zero_of_pos hmaxpos) hcond
      | toRest =>
        split at h
        · exact Except.noConfusion h
        · rename_i hcond
          exact absurd (all_ne_zero_of_pos hrestpos) hcond
      | toMin =>
        split at h
        · exact Except.noConfusion h
        · rename_i hcond
          exact absurd (all_ne_zero_of_pos hminpos) hcond
  | installRamps cur maxF maxD restF restD minF minD rv h hcur hmaxF hrestF hminF hmaxD hrestD hminD =>
    refine ⟨hev, fun rv2 hrv2 => ?_⟩
    have h2 : some rv = some rv2 := hrv2
    simp only [Option.some.injEq] at h2
    subst h2
    exact generate_all_frequency_ramps_safe cur maxF maxD restF restD
      minF minD rv h hcur hmaxF hrestF hminF hmaxD hrestD hminD
  | setStaged l => exact ⟨hev, hramp⟩
  | start => exact ⟨hev, hramp⟩
  | stop => exact ⟨hev, hramp⟩

/-- Every positive-install reachable state satisfies the invariant. -/
theorem managerReachablePos_inv {s : ManagerState}
    (h : ManagerReachablePos s) : managerInv s := by
  induction h with
  | init =>
    refine ⟨List.cons_ne_nil _ _, fun rv hrv => ?_⟩
    cases hrv
  | step hr hst ih => exact managerStepPos_preserves_inv hst ih

/-- A ramp toward target frequency 0 over duration 1, starting from
frequency 3, produces the list `[3, 2, 0]` — the unconditionally appended
end frequency puts a zero into the installed ramp values. -/
theorem gen_three_zero_one :
    generate_single_frequency_ramp 3 0 1 = some [3, 2, 0] := by
  have hmax : max (3 : ℚ) 0 = 3 := max_eq_left (by norm_num)
  have hmin : min (3 : ℚ) 0 = 0 := min_eq_right (by norm_num)
  norm_num [generate_single_frequency_ramp, rampFuel, rampLoop, freqAt,
    correctedResults, sortRamp, List.insertionSort, List.orderedInsert,
    hmax, hmin]

/-- C10 counterexample: a state with `running = true` and an empty active
event list is reachable.  Starting the manager, installing the ramp values
generated for a target frequency of 0 (the ramp-target spin boxes admit 0,
and `generate_single_frequency_ramp 3 0 1 = some [3, 2, 0]`), and then
requesting the frequency ramp makes the source clear `events` and raise
`ZeroDivisionError` in the rebuild comprehension, leaving `events` empty
while running. -/
theorem c10_events_empty_counterexample :
    ManagerReachable { initialManagerState with
      running := true
      frequency_ramp_values := some ⟨[3, 2, 0], [3, 2, 0], [3, 2, 0]⟩
      events := [] } ∧
    ({ initialManagerState with
      running := true
      frequency_ramp_values := some ⟨[3, 2, 0], [3, 2, 0], [3, 2, 0]⟩
      events := [] } : ManagerState).running = true ∧
    ({ initialManagerState with
      running := true
      frequency_ramp_values := some ⟨[3, 2, 0], [3, 2, 0], [3, 2, 0]⟩
      events := [] } : ManagerState).events = [] := by
  refine ⟨?_, rfl, rfl⟩
  have h0 : ManagerReachable (manager_start initialManagerState) :=
    ManagerReachable.step ManagerReachable.init
      (ManagerStep.start initialManagerState)
  have hgen : generate_all_frequency_ramps 3 0 1 0 1 0 1 =
      some ⟨[3, 2, 0], [3, 2, 0], [3, 2, 0]⟩ := by
    simp [generate_all_frequency_ramps, gen_three_zero_one]
  have h1 : ManagerReachable { manager_start initialManagerState with
      frequency_ramp_values := some ⟨[3, 2, 0], [3, 2, 0], [3, 2, 0]⟩ } :=
    ManagerReachable.step h0
      (ManagerStep.installRamps (manager_start initialManagerState)
        3 0 1 0 1 0 1 ⟨[3, 2, 0], [3, 2, 0], [3, 2, 0]⟩ hgen)
  have herr : ramp_frequency { manager_start initialManagerState with
      frequency_ramp_values := some ⟨[3, 2, 0], [3, 2, 0], [3, 2, 0]⟩ }
      RampDirection.toMax =
      Except.error { initialManagerState with
        running := true
        frequency_ramp_values := some ⟨[3, 2, 0], [3, 2, 0], [3, 2, 0]⟩
        events := [] } := by
    norm_num [ramp_frequency, manager_start]
  exact ManagerReachable.step h1
    (ManagerStep.rampFreqErr _ RampDirection.toMax _ herr)

/-- C10 (amended): the invariant holds on the validated-parameter fragment of
the behaviour.  In every state reachable through `get_next_event`,
`apply_changes`, the setters, `set_update_mode`, `ramp_frequency` (both its
normal and its exceptional outcome), start/stop and the controller's direct
writes, with ramp installations generated from positive target frequencies
and non-negative durations, the active event list is non-empty. -/
theorem c10_active_events_nonempty (s : ManagerState)
    (h : ManagerReachablePos s) : s.events ≠ [] :=
  (managerReachablePos_inv h).1

/-- Witness for the amended C10 at the initial state. -/
theorem c10_active_events_nonempty_witness :
    initialManagerState.events ≠ [] :=
  c10_active_events_nonempty initialManagerState ManagerReachablePos.init
